import Mathlib

/-! Shallow embedding of `src/ukkonen_algorithm.py` (Ukkonen suffix-tree
construction) from the FIT3155_Implementations repository, together with
theorems checking the repository specification's claims against it.

Python heap objects are modelled by an arena (`List SuffixTreeNode`)
addressed by integer handles, with the root at handle 0.  The shared
mutable one-element list `leaf_end` is modelled by the single `leafEnd`
field of the tree state; an open leaf stores the marker `NodeEnd.shared`
instead of a private copy, so reading its edge end always goes through the
shared counter.  Python integers are `Int`; Python list indexing, with its
negative-index wraparound and its `IndexError` on out-of-range access, is
`pyGet`.  The unbounded `while` loop of `_extend_suffix_tree` runs on
explicit fuel, with fuel exhaustion reported as a separate outcome
(`LoopRes.fuelEmpty`), so a run that ends in `LoopRes.done` coincides step
for step with the Python execution.

Ghost instrumentation (it never influences the algorithm): `leafEndWrites`
counts the assignments to `leaf_end[0]` (source lines 57 and 119; the
initializer at line 41 creates the cell and is not an assignment to it),
and `remIncrCount` counts the increments of `remaining_suffix_count`
(source lines 58 and 120).  These counters are needed to state the
specification's "exactly once per phase" claims. -/

/-- Edge end of a `SuffixTreeNode`: a closed edge stores its own end index
(`NodeEnd.fixed`), while an open leaf edge stores `NodeEnd.shared`, meaning
"read the tree's shared `leafEnd` counter" (the Python field `end` holds
either an `int` or the shared one-element list `leaf_end`). -/
inductive NodeEnd where
  | fixed (e : Int)
  | shared
deriving Repr, DecidableEq

/-- One Python `SuffixTreeNode` (`src/ukkonen_algorithm.py` lines 4-14).
The field `stop` models the Python attribute `end` (a keyword in Lean). -/
structure SuffixTreeNode where
  children : List (Char × Nat)
  suffixLink : Option Nat
  start : Int
  stop : NodeEnd
  index : Int
deriving Repr, DecidableEq

/-- The whole mutable state of a Python `SuffixTree` object
(`src/ukkonen_algorithm.py` lines 23-47), plus the two ghost counters. -/
structure SuffixTree where
  text : List Char
  size : Nat
  nodes : List SuffixTreeNode
  activeNode : Nat
  activeEdge : Int
  activeLength : Int
  remainingSuffixCount : Int
  leafEnd : Int
  lastNewNode : Option Nat
  leafEndWrites : Nat
  remIncrCount : Nat
deriving Repr, DecidableEq

/-- Python list indexing `s[i]`: nonnegative indices are looked up
directly, negative indices wrap around from the end, and anything out of
range is an `IndexError` (`none`). -/
def pyGet (s : List Char) (i : Int) : Option Char :=
  if 0 ≤ i then s.get? i.toNat
  else if (-i).toNat ≤ s.length then s.get? (s.length - (-i).toNat) else none

/-- Python `dict` lookup `d.get(key)` on the insertion-ordered
association list that models `children`. -/
def dictFind : List (Char × Nat) → Char → Option Nat
  | [], _ => none
  | (c, v) :: rest, key => if c = key then some v else dictFind rest key

/-- Python `dict` assignment `d[key] = v`: replace in place if the key is
present (keeping its position), append otherwise. -/
def dictSet : List (Char × Nat) → Char → Nat → List (Char × Nat)
  | [], key, v => [(key, v)]
  | (c, w) :: rest, key, v =>
    if c = key then (c, v) :: rest else (c, w) :: dictSet rest key v

def defaultNode : SuffixTreeNode :=
  { children := [], suffixLink := none, start := -1, stop := .fixed (-1), index := -1 }

/-- Dereference an arena handle.  Every handle produced by the algorithm is
in range, so the default is never reached on a real execution. -/
def nodeAt (t : SuffixTree) (i : Nat) : SuffixTreeNode := t.nodes.getD i defaultNode

def updateAt : List SuffixTreeNode → Nat → (SuffixTreeNode → SuffixTreeNode) → List SuffixTreeNode
  | [], _, _ => []
  | n :: rest, 0, f => f n :: rest
  | n :: rest, Nat.succ k, f => n :: updateAt rest k f

/-- In-place mutation of one heap object. -/
def modifyNode (t : SuffixTree) (i : Nat) (f : SuffixTreeNode → SuffixTreeNode) : SuffixTree :=
  { t with nodes := updateAt t.nodes i f }

/-- `SuffixTreeNode.edge_length` (lines 16-20): the `current_pos` parameter
of the Python method is unused; an open leaf reads the shared counter. -/
def edgeLengthOf (n : SuffixTreeNode) (leafEnd : Int) : Int :=
  match n.stop with
  | .fixed e => e - n.start + 1
  | .shared => leafEnd - n.start + 1

def edgeLengthAt (t : SuffixTree) (i : Nat) : Int := edgeLengthOf (nodeAt t i) t.leafEnd

/-- Line 103: `self.remaining_suffix_count -= 1`. -/
def decRem (t : SuffixTree) : SuffixTree :=
  { t with remainingSuffixCount := t.remainingSuffixCount - 1 }

/-- The active-point update applied after each suffix insertion
(`src/ukkonen_algorithm.py` lines 105-109, already after the decrement of
`remaining_suffix_count` at line 103). -/
def postInsert (pos : Nat) (t : SuffixTree) : SuffixTree :=
  if t.activeNode = 0 ∧ 0 < t.activeLength then
    { t with activeLength := t.activeLength - 1,
             activeEdge := (pos : Int) - t.remainingSuffixCount + 1 }
  else if t.activeNode ≠ 0 then
    { t with activeNode :=
        match (nodeAt t t.activeNode).suffixLink with
        | some j => j
        | none => 0 }
  else t

/-- Outcome of one iteration of the extension `while` loop: `next` goes
round again (both the skip/count `continue` and the normal fall-through),
`stop` is the rule-3 `break`, `crash` is a Python `IndexError`. -/
inductive StepRes where
  | next (t : SuffixTree)
  | stop (t : SuffixTree)
  | crash
deriving Repr, DecidableEq

/-- `SuffixTreeNode(pos, self.leaf_end)`: a fresh open leaf. -/
def newLeaf (pos : Nat) : SuffixTreeNode :=
  { children := [], suffixLink := none, start := (pos : Int), stop := .shared, index := -1 }

/-- One iteration of the `while` loop body of `_extend_suffix_tree`
(`src/ukkonen_algorithm.py` lines 62-109), to be run when
`remaining_suffix_count > 0`. -/
def extendBody (pos : Nat) (t : SuffixTree) : StepRes :=
  let t1 := if t.activeLength = 0 then { t with activeEdge := (pos : Int) } else t
  match pyGet t1.text t1.activeEdge with
  | none => .crash
  | some currentChar =>
    match dictFind (nodeAt t1 t1.activeNode).children currentChar with
    | none =>
      -- Rule 2, new leaf (lines 67-72).
      let leafIdx := t1.nodes.length
      let t2 := { t1 with nodes := t1.nodes ++ [newLeaf pos] }
      let t3 := modifyNode t2 t2.activeNode
        (fun n => { n with children := dictSet n.children currentChar leafIdx })
      let t4 :=
        match t3.lastNewNode with
        | some ln =>
          { modifyNode t3 ln (fun n => { n with suffixLink := some t3.activeNode }) with
              lastNewNode := none }
        | none => t3
      .next (postInsert pos (decRem t4))
    | some nextIdx =>
      let nd := nodeAt t1 nextIdx
      let el := edgeLengthOf nd t1.leafEnd
      if el ≤ t1.activeLength then
        -- Skip/count (lines 76-81), `continue`: no decrement, no post rules.
        .next { t1 with activeEdge := t1.activeEdge + el,
                        activeLength := t1.activeLength - el,
                        activeNode := nextIdx }
      else
        match pyGet t1.text (nd.start + t1.activeLength), pyGet t1.text (pos : Int) with
        | some cEdge, some cPos =>
          if cEdge = cPos then
            -- Rule 3 (lines 84-89): premature stop, `break`.
            let t2 :=
              match t1.lastNewNode with
              | some ln =>
                if t1.activeNode ≠ 0 then
                  { modifyNode t1 ln (fun n => { n with suffixLink := some t1.activeNode }) with
                      lastNewNode := none }
                else t1
              | none => t1
            .stop { t2 with activeLength := t2.activeLength + 1 }
          else
            -- Rule 2, edge split (lines 91-101).  The split node is created
            -- before the new leaf, so it gets the smaller arena handle; the
            -- key of the re-attached child, `text[next_node.start]` after
            -- `next_node.start += active_length`, is the character `cEdge`
            -- that line 84 already read at that same position.
            let splitIdx := t1.nodes.length
            let leafIdx := splitIdx + 1
            let splitNode : SuffixTreeNode :=
              { children := dictSet (dictSet [] cPos leafIdx) cEdge nextIdx,
                suffixLink := none,
                start := nd.start,
                stop := .fixed (nd.start + t1.activeLength - 1),
                index := -1 }
            let t2 := { t1 with nodes := t1.nodes ++ [splitNode, newLeaf pos] }
            let t3 := modifyNode t2 t2.activeNode
              (fun n => { n with children := dictSet n.children currentChar splitIdx })
            let t4 := modifyNode t3 nextIdx
              (fun n => { n with start := n.start + t1.activeLength })
            let t5 :=
              match t4.lastNewNode with
              | some ln => modifyNode t4 ln (fun n => { n with suffixLink := some splitIdx })
              | none => t4
            .next (postInsert pos (decRem { t5 with lastNewNode := some splitIdx }))
        | _, _ => .crash

/-- Result of running the extension loop (or a whole construction): a
completed Python execution (`done`), a Python `IndexError` (`crash`), or
exhaustion of the modelling fuel (`fuelEmpty`). -/
inductive LoopRes where
  | done (t : SuffixTree)
  | crash
  | fuelEmpty
deriving Repr, DecidableEq

/-- The `while self.remaining_suffix_count > 0` loop of
`_extend_suffix_tree` (lines 61-109), on fuel. -/
def extendLoop (pos : Nat) : Nat → SuffixTree → LoopRes
  | 0, _ => .fuelEmpty
  | Nat.succ fuel, t =>
    if t.remainingSuffixCount ≤ 0 then .done t
    else
      match extendBody pos t with
      | .next t' => extendLoop pos fuel t'
      | .stop t' => .done t'
      | .crash => .crash

/-- `SuffixTree._extend_suffix_tree` (lines 54-109): the phase header
(advance `leaf_end`, increment `remaining_suffix_count`, clear
`last_new_node`) followed by the extension loop. -/
def extendSuffixTree (fuel : Nat) (pos : Nat) (t : SuffixTree) : LoopRes :=
  extendLoop pos fuel
    { t with leafEnd := (pos : Int),
             leafEndWrites := t.leafEndWrites + 1,
             remainingSuffixCount := t.remainingSuffixCount + 1,
             remIncrCount := t.remIncrCount + 1,
             lastNewNode := none }

/-- The state set up by `SuffixTree.__init__` (lines 24-47) before
`_build_suffix_tree` runs: a lone root whose suffix link points to itself. -/
def initialTree (text : List Char) : SuffixTree :=
  { text := text
    size := text.length
    nodes := [{ children := [], suffixLink := some 0, start := -1, stop := .fixed (-1),
                index := -1 }]
    activeNode := 0
    activeEdge := -1
    activeLength := 0
    remainingSuffixCount := 0
    leafEnd := -1
    lastNewNode := none
    leafEndWrites := 0
    remIncrCount := 0 }

/-- Run one phase per listed position, aborting on crash or fuel
exhaustion. -/
def runPhases (fuel : Nat) : List Nat → SuffixTree → LoopRes
  | [], t => .done t
  | p :: ps, t =>
    match extendSuffixTree fuel p t with
    | .done t' => runPhases fuel ps t'
    | r => r

/-- `SuffixTree(text)`: `__init__` plus `_build_suffix_tree` (lines 49-52),
one phase per input position. -/
def buildSuffixTree (fuel : Nat) (s : List Char) : LoopRes :=
  runPhases fuel (List.range s.length) (initialTree s)

/-- `SuffixTree.make_explicit` (lines 111-122): append `'$'`, advance
`leaf_end`, increment `remaining_suffix_count`, clear `last_new_node`, and
then call `_extend_suffix_tree` — which performs that same header again. -/
def makeExplicit (fuel : Nat) (t : SuffixTree) : LoopRes :=
  let pos := t.size
  extendSuffixTree fuel pos
    { t with text := t.text ++ ['$'],
             size := t.size + 1,
             leafEnd := (pos : Int),
             leafEndWrites := t.leafEndWrites + 1,
             remainingSuffixCount := t.remainingSuffixCount + 1,
             remIncrCount := t.remIncrCount + 1,
             lastNewNode := none }

/-- The `for child in node.children.values()` loop of
`set_suffix_index_by_dfs` (lines 133-134): visit each child in insertion
order through the recursive visitor `visit`, threading the mutated tree,
with `label_length + child.edge_length(self.leaf_end[0])` as the new
accumulated label length (the visitor is passed explicitly so the
recursion on fuel below stays structural). -/
def dfsChildren (visit : SuffixTree → Nat → Int → SuffixTree) :
    SuffixTree → List (Char × Nat) → Int → SuffixTree
  | t, [], _ => t
  | t, (_, ci) :: rest, lab =>
    dfsChildren visit (visit t ci (lab + edgeLengthAt t ci)) rest lab

/-- Body of `SuffixTree.set_suffix_index_by_dfs` (lines 124-134) for an
actual node (handle `i`): a leaf gets `index := size - label_length`, an
internal node recurses into its children in insertion order. -/
def dfsAux : Nat → SuffixTree → Nat → Int → SuffixTree
  | 0, t, _, _ => t
  | Nat.succ fuel, t, i, lab =>
    if (nodeAt t i).children = [] then
      modifyNode t i (fun n => { n with index := (t.size : Int) - lab })
    else
      dfsChildren (fun t' ci lab' => dfsAux fuel t' ci lab') t (nodeAt t i).children lab

/-- `SuffixTree.set_suffix_index_by_dfs(node, label_length)` including the
`if not node: return` guard for a `None` argument. -/
def set_suffix_index_by_dfs (fuel : Nat) (t : SuffixTree) (node : Option Nat) (lab : Int) :
    SuffixTree :=
  match node with
  | none => t
  | some i => dfsAux fuel t i lab

/-- The characters labelling the edge into node `i`: the slice
`self.text[child.start : end_index + 1]` used by `_print_tree` (line 142)
and `visualize` (line 169) to reconstruct edge labels. -/
def edgeChars (t : SuffixTree) (i : Nat) : List Char :=
  ((t.text.drop (nodeAt t i).start.toNat).take (edgeLengthAt t i).toNat)

/-- Child iteration for read-only leaf enumeration: each child is visited
with the accumulated path label extended by its edge label, and the
results are concatenated in child insertion order. -/
def collectKids (t : SuffixTree) (visit : Nat → List Char → List (List Char × Nat)) :
    List (Char × Nat) → List Char → List (List Char × Nat)
  | [], _ => []
  | (_, ci) :: rest, acc =>
    visit ci (acc ++ edgeChars t ci) ++ collectKids t visit rest acc

/-- Depth-first enumeration of the leaves below node `i`, in child
insertion order, each with the concatenation of the edge labels on its
path (the accumulator `acc` starts as the label of the path into `i`).
Label reconstruction is the one `_print_tree` performs edge by edge. -/
def collectLeaves : Nat → SuffixTree → Nat → List Char → List (List Char × Nat)
  | 0, _, _, _ => []
  | Nat.succ fuel, t, i, acc =>
    if (nodeAt t i).children = [] then [(acc, i)]
    else collectKids t (fun ci a => collectLeaves fuel t ci a) (nodeAt t i).children acc

/-- All leaves of the tree with their reconstructed path labels. -/
def leafRecords (fuel : Nat) (t : SuffixTree) : List (List Char × Nat) :=
  collectLeaves fuel t 0 []

/-- The path labels of all leaves, in depth-first child order. -/
def leafLabels (fuel : Nat) (t : SuffixTree) : List (List Char) :=
  (leafRecords fuel t).map Prod.fst

/-- The number of leaves of the tree. -/
def leafCount (fuel : Nat) (t : SuffixTree) : Nat :=
  (leafRecords fuel t).length

/-- Modelled from the spec: the repository has no query code under `src/`,
so the walk of `find_all` is taken from §4.4/§6 of the specification:
starting at the root, match the pattern symbol by symbol against edge
labels (a child is chosen by the pattern's next symbol; a pattern ending
inside an edge must be a prefix of that edge's label), returning the node
whose subtree holds all occurrences. -/
def walkDown : Nat → SuffixTree → Nat → List Char → Option Nat
  | 0, _, _, _ => none
  | Nat.succ _, _, i, [] => some i
  | Nat.succ fuel, t, i, c :: cs =>
    match dictFind (nodeAt t i).children c with
    | none => none
    | some ci =>
      let lbl := edgeChars t ci
      if (c :: cs).length ≤ lbl.length then
        if lbl.take (c :: cs).length = c :: cs then some ci else none
      else
        if (c :: cs).take lbl.length = lbl then walkDown fuel t ci ((c :: cs).drop lbl.length)
        else none

/-- Modelled from the spec: `find_all(tree, pattern)` (§6, §4.4 of the
specification; absent from `src/`): walk down along the pattern, then
enumerate all leaves in the subtree reached and return their suffix
indices (the `index` field assigned by `set_suffix_index_by_dfs`). -/
def find_all (fuel : Nat) (t : SuffixTree) (p : List Char) : List Int :=
  match walkDown fuel t 0 p with
  | none => []
  | some i => (collectLeaves fuel t i []).map (fun r => (nodeAt t r.2).index)

/-- Does pattern `p` occur in `s` at position `i`?  (Brute-force check used
to state the specification's occurrence claims.) -/
def occursAt (s p : List Char) (i : Nat) : Bool :=
  decide ((s.drop i).take p.length = p)

/-- All start positions at which `p` occurs in `s`, by brute-force scan. -/
def occurrencesOf (s p : List Char) : List Nat :=
  (List.range (s.length + 1)).filter (occursAt s p)

/-- The (nonempty) suffixes of `s`, longest first. -/
def suffixesOf (s : List Char) : List (List Char) :=
  (List.range s.length).map (fun i => s.drop i)

/-- `SuffixTree(s)` followed by `make_explicit()`: the finalized tree.
Returns `none` if the run crashes or runs out of fuel. -/
def buildFinal (fuel : Nat) (s : List Char) : Option SuffixTree :=
  match buildSuffixTree fuel s with
  | .done t =>
    match makeExplicit fuel t with
    | .done t' => some t'
    | _ => none
  | _ => none

/-- The composition exercised by the repository's `__main__` block
(lines 193-206): build the implicit tree, `make_explicit`, then
`set_suffix_index_by_dfs(root, 0)`. -/
def buildAll (fuel : Nat) (s : List Char) : Option SuffixTree :=
  (buildFinal fuel s).map (fun t => set_suffix_index_by_dfs fuel t (some 0) 0)

/-- `make_explicit` followed from a fresh `SuffixTree(s)`, as one result. -/
def finalizeRes (fuel : Nat) (s : List Char) : LoopRes :=
  match buildSuffixTree fuel s with
  | .done t => makeExplicit fuel t
  | r => r

/-- Modelled from the spec: finalization as §4.4 of the specification
describes it — append one terminator symbol and run exactly one more phase
as in §4.3 for that position (the phase itself advances the Leaf-End
Reference to the terminator position and increments
`remaining_suffix_count` exactly once, in its steps 1-2).  This is the
reference point for the refinement claim about `make_explicit`; it omits
the extra pre-increment and pre-write that `make_explicit` performs before
delegating to `_extend_suffix_tree`. -/
def makeExplicitSpec (fuel : Nat) (t : SuffixTree) : LoopRes :=
  extendSuffixTree fuel t.size { t with text := t.text ++ ['$'], size := t.size + 1 }

/-- `makeExplicitSpec` from a fresh `SuffixTree(s)`, as one result. -/
def specFinalizeRes (fuel : Nat) (s : List Char) : LoopRes :=
  match buildSuffixTree fuel s with
  | .done t => makeExplicitSpec fuel t
  | r => r

/-- Observe the ghost counter of `remaining_suffix_count` increments on a
completed run. -/
def resRemInc : LoopRes → Option Nat
  | .done t => some t.remIncrCount
  | _ => none

/-- Observe the ghost counter of `leaf_end[0]` assignments on a completed
run. -/
def resLeafEndWrites : LoopRes → Option Nat
  | .done t => some t.leafEndWrites
  | _ => none

/-- Observe the text of a completed run. -/
def resText : LoopRes → Option (List Char)
  | .done t => some t.text
  | _ => none

/-- What the extension loop never touches: the text, its length, the
shared leaf-end counter and both ghost counters.  Only the phase headers
(lines 54-59, 111-121) write these. -/
def SameShell (t t' : SuffixTree) : Prop :=
  t'.text = t.text ∧ t'.size = t.size ∧ t'.leafEnd = t.leafEnd ∧
  t'.leafEndWrites = t.leafEndWrites ∧ t'.remIncrCount = t.remIncrCount

/-- Frame of `set_suffix_index_by_dfs`: everything except the `index`
fields of leaves is untouched — the text, the arena size, the whole
construction state, and every node's `children`, `start`, `stop`
(Python `end`) and `suffix_link`; the `index` of a node that has children
is also untouched. -/
structure DfsFrame (t t' : SuffixTree) : Prop where
  text_eq : t'.text = t.text
  size_eq : t'.size = t.size
  len_eq : t'.nodes.length = t.nodes.length
  activeNode_eq : t'.activeNode = t.activeNode
  activeEdge_eq : t'.activeEdge = t.activeEdge
  activeLength_eq : t'.activeLength = t.activeLength
  remaining_eq : t'.remainingSuffixCount = t.remainingSuffixCount
  leafEnd_eq : t'.leafEnd = t.leafEnd
  lastNew_eq : t'.lastNewNode = t.lastNewNode
  writes_eq : t'.leafEndWrites = t.leafEndWrites
  remInc_eq : t'.remIncrCount = t.remIncrCount
  shape_eq : ∀ j, (nodeAt t' j).children = (nodeAt t j).children ∧
      (nodeAt t' j).start = (nodeAt t j).start ∧
      (nodeAt t' j).stop = (nodeAt t j).stop ∧
      (nodeAt t' j).suffixLink = (nodeAt t j).suffixLink
  internal_index_eq : ∀ j, (nodeAt t j).children ≠ [] →
      (nodeAt t' j).index = (nodeAt t j).index

/-- Child iteration for the pure write-list of the traversal, mirroring
`dfsChildren`. -/
def childWrites (t : SuffixTree) (visit : Nat → Int → List (Nat × Int)) :
    List (Char × Nat) → Int → List (Nat × Int)
  | [], _ => []
  | (_, ci) :: rest, lab => visit ci (lab + edgeLengthAt t ci) ++ childWrites t visit rest lab

/-- The list of `index` assignments `set_suffix_index_by_dfs` performs,
in traversal order, computed without mutating anything: one pair
`(leaf handle, size - accumulated label length)` per leaf reached. -/
def leafWrites : Nat → SuffixTree → Nat → Int → List (Nat × Int)
  | 0, _, _, _ => []
  | Nat.succ fuel, t, i, lab =>
    if (nodeAt t i).children = [] then [(i, (t.size : Int) - lab)]
    else childWrites t (fun ci lab' => leafWrites fuel t ci lab') (nodeAt t i).children lab

/-- Perform a list of `index` assignments, in order. -/
def applyWrites (t : SuffixTree) (ws : List (Nat × Int)) : SuffixTree :=
  ws.foldl (fun u p => modifyNode u p.1 (fun n => { n with index := p.2 })) t

/-- `ReachD t d i j acc`: node `j` is reachable from node `i` by a chain
of `d` child edges, whose edge lengths (as `edge_length` computes them)
sum to `acc`. -/
inductive ReachD (t : SuffixTree) : Nat → Nat → Nat → Int → Prop where
  | refl (i : Nat) : ReachD t 0 i i 0
  | step {c : Char} {k d i j : Nat} {acc : Int} :
      (c, k) ∈ (nodeAt t i).children → ReachD t d k j acc →
      ReachD t (d + 1) i j (edgeLengthAt t k + acc)

/-- A small concrete explicit tree (text `ab$`, a root with two leaf
children) used to witness the universally quantified theorems. -/
def tEx : SuffixTree :=
  { text := ['a', 'b', '$']
    size := 3
    nodes := [
      { children := [('a', 1), ('b', 2)], suffixLink := some 0, start := -1,
        stop := .fixed (-1), index := -1 },
      { children := [], suffixLink := none, start := 0, stop := .shared, index := -1 },
      { children := [], suffixLink := none, start := 1, stop := .shared, index := -1 }]
    activeNode := 1
    activeEdge := -1
    activeLength := 0
    remainingSuffixCount := 0
    leafEnd := 2
    lastNewNode := none
    leafEndWrites := 0
    remIncrCount := 0 }

/-- The implicit tree the code builds for the input `a$` (an input that
already contains the terminator symbol). -/
def exTree : SuffixTree :=
  match buildSuffixTree 200 ['a', '$'] with
  | .done t => t
  | _ => initialTree []

/-- The result of `make_explicit` on `exTree`. -/
def exFinal : SuffixTree :=
  match makeExplicit 200 exTree with
  | .done t => t
  | _ => initialTree []

/-! ### Theorems -/

theorem postInsert_text (pos : Nat) (t : SuffixTree) : (postInsert pos t).text = t.text := by
  unfold postInsert; split <;> [rfl; (split <;> rfl)]

theorem postInsert_size (pos : Nat) (t : SuffixTree) : (postInsert pos t).size = t.size := by
  unfold postInsert; split <;> [rfl; (split <;> rfl)]

theorem postInsert_leafEnd (pos : Nat) (t : SuffixTree) :
    (postInsert pos t).leafEnd = t.leafEnd := by
  unfold postInsert; split <;> [rfl; (split <;> rfl)]

theorem postInsert_leafEndWrites (pos : Nat) (t : SuffixTree) :
    (postInsert pos t).leafEndWrites = t.leafEndWrites := by
  unfold postInsert; split <;> [rfl; (split <;> rfl)]

theorem postInsert_remIncrCount (pos : Nat) (t : SuffixTree) :
    (postInsert pos t).remIncrCount = t.remIncrCount := by
  unfold postInsert; split <;> [rfl; (split <;> rfl)]

/-- C7.  After each symbol insertion within a phase the active point is
updated by exactly the claimed rules (`postInsert` is the code of lines
105-109, invoked right after the `remaining_suffix_count` decrement at the
end of both inserting branches of the loop body `extendBody`): at the root
with positive active length, the length is decremented and the active edge
becomes position `pos - remaining_suffix_count + 1`; away from the root,
the active node follows its suffix link, falling back to the root when the
link is absent, with active edge and active length untouched; otherwise
nothing changes. -/
theorem claim_C7_active_point_rules (pos : Nat) (t : SuffixTree) :
    (t.activeNode = 0 → 0 < t.activeLength →
      postInsert pos t =
        { t with activeLength := t.activeLength - 1,
                 activeEdge := (pos : Int) - t.remainingSuffixCount + 1 }) ∧
    (t.activeNode ≠ 0 →
      postInsert pos t =
        { t with activeNode :=
            match (nodeAt t t.activeNode).suffixLink with
            | some j => j
            | none => 0 }) ∧
    (t.activeNode = 0 → t.activeLength ≤ 0 → postInsert pos t = t) := by
  refine ⟨fun h1 h2 => ?_, fun h1 => ?_, fun h1 h2 => ?_⟩
  · unfold postInsert
    rw [if_pos ⟨h1, h2⟩]
  · unfold postInsert
    rw [if_neg (fun h => h1 h.1), if_pos h1]
  · unfold postInsert
    rw [if_neg (fun h => absurd h.2 (not_lt.mpr h2)), if_neg (fun h => h h1)]

/-- Witness for C7 at the concrete state `tEx`, whose active node 1 is not
the root and has no suffix link: the active point falls back to the root,
everything else unchanged. -/
theorem claim_C7_witness : postInsert 5 tEx = { tEx with activeNode := 0 } := by
  have h := (claim_C7_active_point_rules 5 tEx).2.1 (by decide)
  exact h.trans rfl

/-- C1 (the claim fails on the code).  On input `abab`, pattern `a` (a
substring of the input): the finalized+indexed tree answers `find_all`
with start indices 3, 2, 0, but the true occurrence set is {0, 2} — index
3 is a false positive (no occurrence of `a` starts at 3).  On pattern `b`
the answer is {1}, missing the true occurrence at 3. -/
theorem claim_C1_find_all_inexact :
    (buildAll 200 ['a', 'b', 'a', 'b']).map (fun t => find_all 200 t ['a']) =
      some [3, 2, 0] ∧
    occurrencesOf ['a', 'b', 'a', 'b'] ['a'] = [0, 2] ∧
    occursAt ['a', 'b', 'a', 'b'] ['a'] 3 = false ∧
    (buildAll 200 ['a', 'b', 'a', 'b']).map (fun t => find_all 200 t ['b']) =
      some [1] ∧
    occurrencesOf ['a', 'b', 'a', 'b'] ['b'] = [1, 3] :=
  ⟨rfl, rfl, rfl, rfl, rfl⟩

/-- C2 (the claim fails on the code).  On input `abab` the finalized tree
does have `len(S) + 1 = 5` leaves, but they are not one per suffix of the
terminated sequence: no leaf reconstructs the suffix `b$`, while a leaf
reconstructs `a$`, which is not a suffix of `abab$`. -/
theorem claim_C2_leaves_not_one_per_suffix :
    (buildFinal 200 ['a', 'b', 'a', 'b']).map (leafCount 200) = some 5 ∧
    (buildFinal 200 ['a', 'b', 'a', 'b']).map
      (fun t => (leafLabels 200 t).contains ['b', '$']) = some false ∧
    (buildFinal 200 ['a', 'b', 'a', 'b']).map
      (fun t => (leafLabels 200 t).contains ['a', '$']) = some true ∧
    (suffixesOf ['a', 'b', 'a', 'b', '$']).contains ['b', '$'] = true ∧
    (suffixesOf ['a', 'b', 'a', 'b', '$']).contains ['a', '$'] = false :=
  ⟨rfl, rfl, rfl, rfl, rfl⟩

/-- C3 (the claim fails on the code).  On input `abab` the multiset of
leaf path labels of the finalized tree is {a$, ab$, abab$, bab$, $},
which is not the set of suffixes of `abab$`: the label `a$` is not a
suffix, and the suffix `b$` is reconstructed by no leaf. -/
theorem claim_C3_leaf_labels_not_suffixes :
    (buildFinal 200 ['a', 'b', 'a', 'b']).map (leafLabels 200) =
      some [['a', '$'], ['a', 'b', '$'], ['a', 'b', 'a', 'b', '$'],
            ['b', 'a', 'b', '$'], ['$']] ∧
    suffixesOf ['a', 'b', 'a', 'b', '$'] =
      [['a', 'b', 'a', 'b', '$'], ['b', 'a', 'b', '$'], ['a', 'b', '$'],
       ['b', '$'], ['$']] ∧
    (suffixesOf ['a', 'b', 'a', 'b', '$']).contains ['a', '$'] = false ∧
    (buildFinal 200 ['a', 'b', 'a', 'b']).map
      (fun t => (leafLabels 200 t).contains ['b', '$']) = some false :=
  ⟨rfl, rfl, rfl, rfl⟩

/-- C4 (the claim fails on the code).  Building `a` performs one phase,
so one `remaining_suffix_count` increment; `make_explicit` then raises the
increment count to 3, i.e. the finalization phase increments the counter
twice (once at line 120, once inside `_extend_suffix_tree` at line 58),
where the specification's single §4.3 phase (`makeExplicitSpec`) would
raise it to 2. -/
theorem claim_C4_finalize_double_increment :
    resRemInc (buildSuffixTree 200 ['a']) = some 1 ∧
    resRemInc (finalizeRes 200 ['a']) = some 3 ∧
    resRemInc (specFinalizeRes 200 ['a']) = some 2 :=
  ⟨rfl, rfl, rfl⟩

/-- C9 (the claim fails on the code).  Building `ab` performs two phases
and exactly one Leaf-End write each (counter 2); finalization then raises
the write counter to 4 — the final phase writes the Leaf-End Reference
twice (line 119 in `make_explicit` and line 57 in `_extend_suffix_tree`),
where the specification's once-per-phase discipline (`makeExplicitSpec`)
would raise it to 3. -/
theorem claim_C9_leaf_end_double_write :
    resLeafEndWrites (buildSuffixTree 200 ['a', 'b']) = some 2 ∧
    resLeafEndWrites (finalizeRes 200 ['a', 'b']) = some 4 ∧
    resLeafEndWrites (specFinalizeRes 200 ['a', 'b']) = some 3 :=
  ⟨rfl, rfl, rfl⟩

/-- C5 counterexample.  The input `a$` already contains the terminator
symbol, yet `make_explicit` does not fail and does not leave the tree
unchanged: it completes and the text becomes `a$$`. -/
theorem claim_C5_counterexample :
    resText (buildSuffixTree 200 ['a', '$']) = some ['a', '$'] ∧
    resText (finalizeRes 200 ['a', '$']) = some ['a', '$', '$'] :=
  ⟨rfl, rfl⟩

theorem sameShell_refl (t : SuffixTree) : SameShell t t := ⟨rfl, rfl, rfl, rfl, rfl⟩

theorem sameShell_trans {t u v : SuffixTree} (h1 : SameShell t u) (h2 : SameShell u v) :
    SameShell t v :=
  ⟨h2.1.trans h1.1, h2.2.1.trans h1.2.1, h2.2.2.1.trans h1.2.2.1,
   h2.2.2.2.1.trans h1.2.2.2.1, h2.2.2.2.2.trans h1.2.2.2.2⟩

/-- No branch of the loop body touches the text, the size, the leaf-end
counter or the ghost counters. -/
theorem extendBody_shell (pos : Nat) (t t' : SuffixTree)
    (h : extendBody pos t = .next t' ∨ extendBody pos t = .stop t') : SameShell t t' := by
  unfold extendBody at h
  rcases h with h | h <;> simp only [] at h <;> repeat' split at h
  all_goals first
    | exact StepRes.noConfusion h
    | (injection h with h; subst h;
       refine ⟨?_, ?_, ?_, ?_, ?_⟩ <;>
         simp only [postInsert_text, postInsert_size, postInsert_leafEnd,
           postInsert_leafEndWrites, postInsert_remIncrCount, decRem, modifyNode])

theorem extendLoop_shell (pos : Nat) : ∀ (fuel : Nat) (t t' : SuffixTree),
    extendLoop pos fuel t = .done t' → SameShell t t' := by
  intro fuel
  induction fuel with
  | zero => intro t t' h; exact LoopRes.noConfusion h
  | succ fuel ih =>
    intro t t' h
    rw [extendLoop] at h
    split at h
    · injection h with h; subst h; exact sameShell_refl t
    · split at h
      · exact sameShell_trans (extendBody_shell pos t _ (Or.inl (by assumption))) (ih _ _ h)
      · injection h with h; subst h
        exact extendBody_shell pos t _ (Or.inr (by assumption))
      · exact LoopRes.noConfusion h

/-- A completed phase `_extend_suffix_tree(pos)` leaves the text and size
alone, sets the Leaf-End Reference to `pos`, and performs exactly one
Leaf-End write and one `remaining_suffix_count` increment — the whole
`while` loop performs none. -/
theorem extendSuffixTree_shell (fuel pos : Nat) (t t' : SuffixTree)
    (h : extendSuffixTree fuel pos t = .done t') :
    t'.text = t.text ∧ t'.size = t.size ∧ t'.leafEnd = (pos : Int) ∧
    t'.leafEndWrites = t.leafEndWrites + 1 ∧ t'.remIncrCount = t.remIncrCount + 1 := by
  have hs := extendLoop_shell pos fuel _ t' h
  exact ⟨hs.1, hs.2.1, hs.2.2.1, hs.2.2.2.1, hs.2.2.2.2⟩

/-- C5 amended.  `make_explicit` performs no terminator check: even when
`'$'` already occurs in the input text, the operation does not fail and
does not leave the tree unchanged — whenever it completes, it has appended
another `'$'` (so the text ends in two terminators) and grown the size,
mutating the tree. -/
theorem claim_C5_amended (fuel : Nat) (t t' : SuffixTree) (_hdollar : '$' ∈ t.text)
    (h : makeExplicit fuel t = .done t') :
    t'.text = t.text ++ ['$'] ∧ t'.size = t.size + 1 ∧ t' ≠ t := by
  unfold makeExplicit at h
  have hs := extendSuffixTree_shell fuel t.size _ t' h
  refine ⟨hs.1, hs.2.1, fun he => ?_⟩
  have : t.size = t.size + 1 := by
    have h2 := hs.2.1
    rw [he] at h2
    exact h2
  omega

/-- Witness for the amended C5 at the concrete input `a$`. -/
theorem claim_C5_amended_witness :
    exFinal.text = exTree.text ++ ['$'] ∧ exFinal.size = exTree.size + 1 ∧ exFinal ≠ exTree :=
  claim_C5_amended 200 exTree exFinal (by decide) rfl

theorem updateAt_length (l : List SuffixTreeNode) (i : Nat) (f : SuffixTreeNode → SuffixTreeNode) :
    (updateAt l i f).length = l.length := by
  induction l generalizing i with
  | nil => rfl
  | cons n rest ih =>
    cases i with
    | zero => rfl
    | succ i => simp [updateAt, ih]

theorem updateAt_getD (l : List SuffixTreeNode) (i : Nat) (f : SuffixTreeNode → SuffixTreeNode)
    (j : Nat) (d : SuffixTreeNode) :
    (updateAt l i f).getD j d = if j = i ∧ i < l.length then f (l.getD i d) else l.getD j d := by
  induction l generalizing i j with
  | nil => simp [updateAt]
  | cons n rest ih =>
    cases i with
    | zero =>
      cases j with
      | zero => simp [updateAt]
      | succ j => simp [updateAt]
    | succ i =>
      cases j with
      | zero => simp [updateAt]
      | succ j => simpa [updateAt, Nat.succ_lt_succ_iff] using ih i j

theorem modifyNode_len (t : SuffixTree) (i : Nat) (f : SuffixTreeNode → SuffixTreeNode) :
    (modifyNode t i f).nodes.length = t.nodes.length :=
  updateAt_length t.nodes i f

theorem nodeAt_modify (t : SuffixTree) (i : Nat) (f : SuffixTreeNode → SuffixTreeNode) (j : Nat) :
    nodeAt (modifyNode t i f) j =
      if j = i ∧ i < t.nodes.length then f (nodeAt t i) else nodeAt t j :=
  updateAt_getD t.nodes i f j defaultNode

theorem dfsFrame_refl (t : SuffixTree) : DfsFrame t t :=
  ⟨rfl, rfl, rfl, rfl, rfl, rfl, rfl, rfl, rfl, rfl, rfl,
   fun _ => ⟨rfl, rfl, rfl, rfl⟩, fun _ _ => rfl⟩

theorem dfsFrame_trans {t u v : SuffixTree} (h1 : DfsFrame t u) (h2 : DfsFrame u v) :
    DfsFrame t v := by
  refine ⟨h2.text_eq.trans h1.text_eq, h2.size_eq.trans h1.size_eq,
    h2.len_eq.trans h1.len_eq, h2.activeNode_eq.trans h1.activeNode_eq,
    h2.activeEdge_eq.trans h1.activeEdge_eq, h2.activeLength_eq.trans h1.activeLength_eq,
    h2.remaining_eq.trans h1.remaining_eq, h2.leafEnd_eq.trans h1.leafEnd_eq,
    h2.lastNew_eq.trans h1.lastNew_eq, h2.writes_eq.trans h1.writes_eq,
    h2.remInc_eq.trans h1.remInc_eq, ?_, ?_⟩
  · intro j
    obtain ⟨a2, b2, c2, d2⟩ := h2.shape_eq j
    obtain ⟨a1, b1, c1, d1⟩ := h1.shape_eq j
    exact ⟨a2.trans a1, b2.trans b1, c2.trans c1, d2.trans d1⟩
  · intro j hj
    have hju : (nodeAt u j).children ≠ [] := by
      rw [(h1.shape_eq j).1]; exact hj
    exact (h2.internal_index_eq j hju).trans (h1.internal_index_eq j hj)

theorem dfsFrame_write (t : SuffixTree) (i : Nat) (v : Int)
    (h : (nodeAt t i).children = []) :
    DfsFrame t (modifyNode t i (fun n => { n with index := v })) := by
  refine ⟨rfl, rfl, modifyNode_len t i _, rfl, rfl, rfl, rfl, rfl, rfl, rfl, rfl, ?_, ?_⟩
  · intro j
    rw [nodeAt_modify]
    split
    · next hc => obtain ⟨rfl, _⟩ := hc; exact ⟨rfl, rfl, rfl, rfl⟩
    · exact ⟨rfl, rfl, rfl, rfl⟩
  · intro j hj
    rw [nodeAt_modify]
    split
    · next hc => obtain ⟨rfl, _⟩ := hc; exact absurd h hj
    · rfl

theorem dfsAux_frame : ∀ (fuel : Nat) (t : SuffixTree) (i : Nat) (lab : Int),
    DfsFrame t (dfsAux fuel t i lab) := by
  intro fuel
  induction fuel with
  | zero => intro t i lab; exact dfsFrame_refl t
  | succ fuel ih =>
    have hkids : ∀ (cs : List (Char × Nat)) (t : SuffixTree) (lab : Int),
        DfsFrame t (dfsChildren (fun t' ci lab' => dfsAux fuel t' ci lab') t cs lab) := by
      intro cs
      induction cs with
      | nil => intro t lab; exact dfsFrame_refl t
      | cons hd tl ihcs =>
        intro t lab
        obtain ⟨c, ci⟩ := hd
        rw [dfsChildren]
        exact dfsFrame_trans (ih t ci _) (ihcs _ _)
    intro t i lab
    rw [dfsAux]
    split
    · next hleaf => exact dfsFrame_write t i _ hleaf
    · exact hkids _ t lab

/-- C10.  `set_suffix_index_by_dfs` modifies only the `index` field of
leaf nodes: the text, the tree shape, and every node's `children`,
`start`, `stop` (Python `end`) and `suffix_link` are unchanged by the
traversal (`DfsFrame`), and calling it on a missing (`None`) node returns
the tree untouched. -/
theorem claim_C10_dfs_frame (fuel : Nat) (t : SuffixTree) (node : Option Nat) (lab : Int) :
    set_suffix_index_by_dfs fuel t none lab = t ∧
    DfsFrame t (set_suffix_index_by_dfs fuel t node lab) := by
  refine ⟨rfl, ?_⟩
  cases node with
  | none => exact dfsFrame_refl t
  | some i => exact dfsAux_frame fuel t i lab

/-- Witness for C10 at the concrete tree `tEx`: the root is internal, so
its `index` is untouched by the traversal. -/
theorem claim_C10_witness :
    (nodeAt (set_suffix_index_by_dfs 4 tEx (some 0) 0) 0).index = (nodeAt tEx 0).index :=
  (claim_C10_dfs_frame 4 tEx (some 0) 0).2.internal_index_eq 0 (by decide)

theorem edgeLengthAt_frame {t u : SuffixTree} (h : DfsFrame t u) (i : Nat) :
    edgeLengthAt u i = edgeLengthAt t i := by
  unfold edgeLengthAt edgeLengthOf
  rw [(h.shape_eq i).2.2.1, (h.shape_eq i).2.1, h.leafEnd_eq]

theorem leafWrites_frame {t u : SuffixTree} (h : DfsFrame t u) :
    ∀ (fuel : Nat) (i : Nat) (lab : Int), leafWrites fuel u i lab = leafWrites fuel t i lab := by
  intro fuel
  induction fuel with
  | zero => intro i lab; rfl
  | succ fuel ih =>
    intro i lab
    rw [leafWrites, leafWrites, (h.shape_eq i).1, h.size_eq]
    split
    · rfl
    · have hcw : ∀ (cs : List (Char × Nat)) (lab : Int),
          childWrites u (fun ci lab' => leafWrites fuel u ci lab') cs lab =
          childWrites t (fun ci lab' => leafWrites fuel t ci lab') cs lab := by
        intro cs
        induction cs with
        | nil => intro lab; rfl
        | cons hd tl ihcs =>
          intro lab
          obtain ⟨c, ci⟩ := hd
          rw [childWrites, childWrites, ih, edgeLengthAt_frame h, ihcs]
      exact hcw _ lab

theorem applyWrites_append (t : SuffixTree) (ws1 ws2 : List (Nat × Int)) :
    applyWrites t (ws1 ++ ws2) = applyWrites (applyWrites t ws1) ws2 := by
  unfold applyWrites
  rw [List.foldl_append]

theorem childWrites_frame {t u : SuffixTree} (h : DfsFrame t u) (fuel : Nat) :
    ∀ (cs : List (Char × Nat)) (lab : Int),
      childWrites u (fun ci lab' => leafWrites fuel u ci lab') cs lab =
      childWrites t (fun ci lab' => leafWrites fuel t ci lab') cs lab := by
  intro cs
  induction cs with
  | nil => intro lab; rfl
  | cons hd tl ihcs =>
    intro lab
    obtain ⟨c, ci⟩ := hd
    rw [childWrites, childWrites, leafWrites_frame h, edgeLengthAt_frame h, ihcs]

theorem dfsAux_applyWrites : ∀ (fuel : Nat) (t : SuffixTree) (i : Nat) (lab : Int),
    dfsAux fuel t i lab = applyWrites t (leafWrites fuel t i lab) := by
  intro fuel
  induction fuel with
  | zero => intro t i lab; rfl
  | succ fuel ih =>
    have hkids : ∀ (cs : List (Char × Nat)) (t : SuffixTree) (lab : Int),
        dfsChildren (fun t' ci lab' => dfsAux fuel t' ci lab') t cs lab =
        applyWrites t (childWrites t (fun ci lab' => leafWrites fuel t ci lab') cs lab) := by
      intro cs
      induction cs with
      | nil => intro t lab; rfl
      | cons hd tl ihcs =>
        intro t lab
        obtain ⟨c, ci⟩ := hd
        rw [dfsChildren, childWrites, ihcs]
        rw [childWrites_frame (dfsAux_frame fuel t ci (lab + edgeLengthAt t ci)) fuel]
        rw [ih]
        rw [applyWrites_append]
    intro t i lab
    rw [dfsAux, leafWrites]
    split
    · rfl
    · exact hkids _ t lab

theorem childWrites_mem {t : SuffixTree} {visit : Nat → Int → List (Nat × Int)} :
    ∀ {cs : List (Char × Nat)} {lab : Int} {p : Nat × Int}, p ∈ childWrites t visit cs lab →
      ∃ c ci, (c, ci) ∈ cs ∧ p ∈ visit ci (lab + edgeLengthAt t ci) := by
  intro cs
  induction cs with
  | nil => intro lab p h; exact absurd h (List.not_mem_nil p)
  | cons hd tl ihcs =>
    intro lab p h
    obtain ⟨c, ci⟩ := hd
    rw [childWrites] at h
    rcases List.mem_append.mp h with h | h
    · exact ⟨c, ci, List.mem_cons_self _ _, h⟩
    · obtain ⟨c', ci', hmem, hp⟩ := ihcs h
      exact ⟨c', ci', List.mem_cons_of_mem _ hmem, hp⟩

theorem childWrites_mem_of {t : SuffixTree} {visit : Nat → Int → List (Nat × Int)} :
    ∀ {cs : List (Char × Nat)} {lab : Int} {c : Char} {ci : Nat} {p : Nat × Int},
      (c, ci) ∈ cs → p ∈ visit ci (lab + edgeLengthAt t ci) → p ∈ childWrites t visit cs lab := by
  intro cs
  induction cs with
  | nil => intro lab c ci p h; exact absurd h (List.not_mem_nil _)
  | cons hd tl ihcs =>
    intro lab c ci p hmem hp
    obtain ⟨c0, ci0⟩ := hd
    rw [childWrites]
    rcases List.mem_cons.mp hmem with heq | hmem'
    · injection heq with h1 h2
      subst h1; subst h2
      exact List.mem_append_left _ hp
    · exact List.mem_append_right _ (ihcs hmem' hp)

theorem leafWrites_mem : ∀ (fuel : Nat) (t : SuffixTree) (i : Nat) (lab : Int) (p : Nat × Int),
    p ∈ leafWrites fuel t i lab →
    (nodeAt t p.1).children = [] ∧
    ∃ d acc, ReachD t d i p.1 acc ∧ d < fuel ∧ p.2 = (t.size : Int) - (lab + acc) := by
  intro fuel
  induction fuel with
  | zero => intro t i lab p h; exact absurd h (List.not_mem_nil p)
  | succ fuel ih =>
    intro t i lab p h
    rw [leafWrites] at h
    split at h
    · next hleaf =>
      have hp := List.mem_singleton.mp h
      subst hp
      exact ⟨hleaf, 0, 0, ReachD.refl i, Nat.succ_pos fuel, by omega⟩
    · next _ =>
      obtain ⟨c, ci, hmem, hp⟩ := childWrites_mem h
      obtain ⟨hleaf, d, acc, hreach, hd, hval⟩ := ih t ci _ p hp
      refine ⟨hleaf, d + 1, edgeLengthAt t ci + acc, ReachD.step hmem hreach,
        Nat.succ_lt_succ hd, ?_⟩
      rw [hval]; omega

theorem leafWrites_complete {t : SuffixTree} {d i j : Nat} {acc : Int}
    (hreach : ReachD t d i j acc) :
    ∀ (fuel : Nat) (lab : Int), d < fuel → (nodeAt t j).children = [] →
      (j, (t.size : Int) - (lab + acc)) ∈ leafWrites fuel t i lab := by
  induction hreach with
  | refl i0 =>
    intro fuel lab hf hleaf
    cases fuel with
    | zero => omega
    | succ fuel =>
      rw [leafWrites, if_pos hleaf]
      simp
  | @step c k d0 i0 j0 acc0 hmem hr ih =>
    intro fuel lab hf hleaf
    cases fuel with
    | zero => omega
    | succ fuel =>
      rw [leafWrites, if_neg (fun hnil => by rw [hnil] at hmem; exact absurd hmem (List.not_mem_nil _))]
      refine childWrites_mem_of hmem ?_
      have hin := ih fuel (lab + edgeLengthAt t k) (Nat.lt_of_succ_lt_succ hf) hleaf
      have heq : (t.size : Int) - (lab + (edgeLengthAt t k + acc0)) =
          (t.size : Int) - (lab + edgeLengthAt t k + acc0) := by omega
      rw [heq]
      exact hin

/-- C8.  `set_suffix_index_by_dfs` from the root with accumulated length 0
equals performing, in traversal order, exactly the writes `leafWrites`:
one per reached leaf, setting its `index` to the sequence length
(`t.size`) minus the accumulated edge-label length at that leaf — every
write targets a leaf and carries `size - acc` for its path accumulation
`acc` (`ReachD`), every leaf reachable within the fuel bound receives its
write, and every internal node's `index` is left untouched (so an
internal node unindexed at -1 stays at -1). -/
theorem claim_C8_suffix_index_assignment (fuel : Nat) (t : SuffixTree) :
    set_suffix_index_by_dfs fuel t (some 0) 0 = applyWrites t (leafWrites fuel t 0 0) ∧
    (∀ p ∈ leafWrites fuel t 0 0,
      (nodeAt t p.1).children = [] ∧
      ∃ d acc, ReachD t d 0 p.1 acc ∧ d < fuel ∧ p.2 = (t.size : Int) - acc) ∧
    (∀ (d j : Nat) (acc : Int), ReachD t d 0 j acc → d < fuel →
      (nodeAt t j).children = [] → (j, (t.size : Int) - acc) ∈ leafWrites fuel t 0 0) ∧
    (∀ j, (nodeAt t j).children ≠ [] →
      (nodeAt (set_suffix_index_by_dfs fuel t (some 0) 0) j).index = (nodeAt t j).index) := by
  refine ⟨dfsAux_applyWrites fuel t 0 0, ?_, ?_, ?_⟩
  · intro p hp
    obtain ⟨hleaf, d, acc, hreach, hd, hval⟩ := leafWrites_mem fuel t 0 0 p hp
    exact ⟨hleaf, d, acc, hreach, hd, by rw [hval]; omega⟩
  · intro d j acc hreach hd hleaf
    have hin := leafWrites_complete hreach fuel 0 hd hleaf
    have heq : (t.size : Int) - (0 + acc) = (t.size : Int) - acc := by omega
    rw [heq] at hin
    exact hin
  · intro j hj
    exact (dfsAux_frame fuel t 0 0).internal_index_eq j hj

/-- Witness for C8 at the concrete tree `tEx`: leaf 1 sits one edge below
the root, so the traversal writes `size - edge_length` into it. -/
theorem claim_C8_witness :
    ((1 : Nat), (tEx.size : Int) - (edgeLengthAt tEx 1 + 0)) ∈ leafWrites 4 tEx 0 0 :=
  (claim_C8_suffix_index_assignment 4 tEx).2.2.1 1 1 (edgeLengthAt tEx 1 + 0)
    (ReachD.step (show ('a', 1) ∈ (nodeAt tEx 0).children from by decide) (ReachD.refl 1))
    (by decide) (by decide)
